import Mathlib

/-!
Shallow embedding of the numeric core of the tiny-skia fork under
verification: an idealized IEEE-754 value model (exact rational arithmetic
plus the special values, no rounding), the two-lane float pair, affine
transforms, Bezier/conic geometry helpers, the blend-mode table and the
scanline rectangle fill, together with theorems settling the frozen claims.

Floats are modelled by the type F below: a finite value holds an exact
rational (rounding of in-range results is idealized away), while
infinities and NaN follow the IEEE special-value rules exactly.
Conversions between f32 and f64 are the identity in this model. Where
overflow of finite f32 results is load-bearing — the arithmetic of
find_quad_max_curvature, whose final unwrap can panic after an overflow
produces NaN — the saturating single-precision operation variants
(F.sat32 and friends) model overflow to the signed infinity explicitly.
-/

/-- Model of an IEEE-754 floating point value: an exact rational for finite
values, two infinities (the Bool is true for positive infinity) and NaN.
There is no negative zero; rounding is idealized away. -/
inductive F where
  | nan : F
  | inf : Bool → F
  | fin : ℚ → F
deriving DecidableEq, Repr

namespace F

/-- Model of is_finite: true exactly on finite values. -/
def isFinite : F → Bool
  | fin _ => true
  | _ => false

/-- Model of IEEE negation. -/
def neg : F → F
  | nan => nan
  | inf s => inf (!s)
  | fin q => fin (-q)

/-- Model of IEEE addition (exact on finite values). -/
def add : F → F → F
  | nan, _ => nan
  | _, nan => nan
  | inf s, inf t => if s = t then inf s else nan
  | inf s, fin _ => inf s
  | fin _, inf t => inf t
  | fin a, fin b => fin (a + b)

/-- Model of IEEE subtraction (exact on finite values). -/
def sub (a b : F) : F := a.add b.neg

/-- Model of IEEE multiplication (exact on finite values). -/
def mul : F → F → F
  | nan, _ => nan
  | _, nan => nan
  | inf s, inf t => inf (s = t)
  | inf s, fin b => if b = 0 then nan else inf (s = decide (0 < b))
  | fin a, inf t => if a = 0 then nan else inf (t = decide (0 < a))
  | fin a, fin b => fin (a * b)

/-- Model of IEEE division (exact on finite values; a finite value divided
by zero gives an infinity carrying the sign of the numerator, matching the
unsigned zero of this model being treated as positive zero). -/
def div : F → F → F
  | nan, _ => nan
  | _, nan => nan
  | inf _, inf _ => nan
  | inf s, fin b => inf (s = decide (0 ≤ b))
  | fin _, inf _ => fin 0
  | fin a, fin b =>
    if b = 0 then (if a = 0 then nan else inf (decide (0 < a)))
    else fin (a / b)

/-- Model of IEEE absolute value. -/
def abs : F → F
  | nan => nan
  | inf _ => inf true
  | fin q => fin |q|

/-- Model of the IEEE less-than comparison: false whenever an operand is NaN. -/
def lt : F → F → Bool
  | nan, _ => false
  | _, nan => false
  | inf s, inf t => !s && t
  | inf s, fin _ => !s
  | fin _, inf t => t
  | fin a, fin b => decide (a < b)

/-- Model of the IEEE less-or-equal comparison: false whenever an operand is NaN. -/
def le : F → F → Bool
  | nan, _ => false
  | _, nan => false
  | inf s, inf t => !s || t
  | inf s, fin _ => !s
  | fin _, inf t => t
  | fin a, fin b => decide (a ≤ b)

/-- Model of the IEEE equality comparison: false whenever an operand is NaN. -/
def beq : F → F → Bool
  | nan, _ => false
  | _, nan => false
  | inf s, inf t => s == t
  | inf _, fin _ => false
  | fin _, inf _ => false
  | fin a, fin b => a == b

/-- Modelled from the spec: the scalar square root (f32::sqrt / f64::sqrt,
absent from src/). NaN on negative or NaN input, +infinity on +infinity,
and Rat.sqrt on non-negative finite values; the latter is exact whenever
the argument is the square of a rational, which covers every use the
claims below depend on (the value elsewhere is never load-bearing). -/
def sqrt : F → F
  | nan => nan
  | inf s => if s then inf true else nan
  | fin q => if q < 0 then nan else fin (Rat.sqrt q)

end F

/-! The two-lane float pair from src/path/src/f32x2_t.rs. -/

/-- Embedding of the f32x2 pair type: two lanes of the float model. -/
structure f32x2 where
  lo : F
  hi : F
deriving DecidableEq, Repr

namespace f32x2

/-- Embedding of f32x2::new. -/
def new (a b : F) : f32x2 := ⟨a, b⟩

/-- Embedding of f32x2::splat. -/
def splat (x : F) : f32x2 := ⟨x, x⟩

/-- Embedding of f32x2::x, the first lane. -/
def x (v : f32x2) : F := v.lo

/-- Embedding of f32x2::y, the second lane. -/
def y (v : f32x2) : F := v.hi

end f32x2

/-- Embedding of pmax from src/path/src/f32x2_t.rs:
if a < b then b else a (NaN-insensitive maximum). -/
def pmax (a b : F) : F := if a.lt b then b else a

/-- Embedding of pmin from src/path/src/f32x2_t.rs:
if b < a then b else a (NaN-insensitive minimum). -/
def pmin (a b : F) : F := if b.lt a then b else a

namespace f32x2

/-- Embedding of f32x2::min, lane-wise pmin. -/
def min (v u : f32x2) : f32x2 := ⟨pmin v.x u.x, pmin v.y u.y⟩

/-- Embedding of f32x2::max, lane-wise pmax. -/
def max (v u : f32x2) : f32x2 := ⟨pmax v.x u.x, pmax v.y u.y⟩

/-- Embedding of f32x2::max_component. -/
def maxComponent (v : f32x2) : F := pmax v.x v.y

/-- Embedding of the f32x2 Add instance, lane-wise addition. -/
def add (v u : f32x2) : f32x2 := ⟨v.x.add u.x, v.y.add u.y⟩

/-- Embedding of the f32x2 Sub instance, lane-wise subtraction. -/
def sub (v u : f32x2) : f32x2 := ⟨v.x.sub u.x, v.y.sub u.y⟩

/-- Embedding of the f32x2 Mul instance, lane-wise multiplication. -/
def mul (v u : f32x2) : f32x2 := ⟨v.x.mul u.x, v.y.mul u.y⟩

end f32x2

/-! Scalar helpers and the Point type. These live in src files of the
repository that are not under src/ (scalar.rs, point.rs, floating_point.rs),
so they are modelled from the spec. -/

/-- Modelled from the spec: the default nearly-zero scalar constant
SCALAR_NEARLY_ZERO from scalar.rs (absent from src/), the epsilon whose
cube the determinant tolerance is built from. Its concrete value is never
load-bearing in the claims below; the upstream value 1/4096 is used. -/
def SCALAR_NEARLY_ZERO : ℚ := 1 / 4096

/-- Modelled from the spec: f32::EPSILON, the machine epsilon used by
Transform::is_valid as the nearly-zero tolerance for the scale factors. -/
def F32_EPSILON : ℚ := 1 / 8388608

/-- Modelled from the spec: Scalar::is_nearly_zero_within_tolerance from
scalar.rs (absent from src/): the absolute value is within the given
tolerance of zero. -/
def isNearlyZeroWithinTolerance (x : F) (tolerance : ℚ) : Bool :=
  x.abs.le (F.fin tolerance)

/-- Modelled from the spec: Scalar::invert from scalar.rs (absent from
src/), the multiplicative inverse 1.0 / x. -/
def scalarInvert (x : F) : F := (F.fin 1).div x

/-- Modelled from the spec: the Point type from point.rs (absent from
src/), an (x, y) pair of floats. -/
structure Point where
  x : F
  y : F
deriving DecidableEq, Repr

namespace Point

/-- Modelled from the spec: Point::from_xy. -/
def fromXY (x y : F) : Point := ⟨x, y⟩

/-- Modelled from the spec: Point::is_finite, both coordinates finite. -/
def isFinite (p : Point) : Bool := p.x.isFinite && p.y.isFinite

/-- Modelled from the spec: the derived PartialEq on Point, IEEE equality
on both coordinates. -/
def beq (p q : Point) : Bool := p.x.beq q.x && p.y.beq q.y

/-- Modelled from the spec: the Point Sub instance, component-wise. -/
def sub (p q : Point) : Point := ⟨p.x.sub q.x, p.y.sub q.y⟩

/-- Modelled from the spec: Point::to_f32x2. -/
def toF32x2 (p : Point) : f32x2 := ⟨p.x, p.y⟩

/-- Modelled from the spec: Point::from_f32x2. -/
def fromF32x2 (v : f32x2) : Point := ⟨v.x, v.y⟩

end Point

/-- Modelled from the spec: NormalizedF32 from floating_point.rs (absent
from src/), a float value-constrained to the closed interval 0..=1. The
runtime-checked invariant lives in the smart constructor below. -/
structure NormalizedF32 where
  get : F
deriving DecidableEq, Repr

namespace NormalizedF32

/-- Modelled from the spec: the checked constructor; fails outside 0..=1
(and on NaN, for which both comparisons are false). -/
def new (x : F) : Option NormalizedF32 :=
  if (F.fin 0).le x && x.le (F.fin 1) then some ⟨x⟩ else none

/-- Modelled from the spec: NormalizedF32::ZERO. -/
def ZERO : NormalizedF32 := ⟨F.fin 0⟩

/-- Modelled from the spec: NormalizedF32::ONE. -/
def ONE : NormalizedF32 := ⟨F.fin 1⟩

end NormalizedF32

/-- Modelled from the spec: NormalizedF32Exclusive from floating_point.rs
(absent from src/), a float value-constrained to the open interval (0, 1). -/
structure NormalizedF32Exclusive where
  get : F
deriving DecidableEq, Repr

namespace NormalizedF32Exclusive

/-- Modelled from the spec: the checked constructor; fails outside the
open interval (0, 1) (and on NaN). -/
def new (x : F) : Option NormalizedF32Exclusive :=
  if (F.fin 0).lt x && x.lt (F.fin 1) then some ⟨x⟩ else none

/-- Modelled from the spec: the derived PartialEq, IEEE equality of the
wrapped floats. -/
def beq (a b : NormalizedF32Exclusive) : Bool := a.get.beq b.get

end NormalizedF32Exclusive

/-! The affine transform from src/path/src/transform.rs. -/

/-- Embedding of the Transform struct: six float coefficients. -/
structure Transform where
  sx : F
  kx : F
  ky : F
  sy : F
  tx : F
  ty : F
deriving DecidableEq, Repr

namespace Transform

/-- Embedding of Transform::from_row; note the argument order
(sx, ky, kx, sy, tx, ty) of the source. -/
def fromRow (sx ky kx sy tx ty : F) : Transform :=
  { sx := sx, ky := ky, kx := kx, sy := sy, tx := tx, ty := ty }

/-- Embedding of Transform::identity (the Default instance). -/
def identity : Transform :=
  { sx := F.fin 1, kx := F.fin 0, ky := F.fin 0,
    sy := F.fin 1, tx := F.fin 0, ty := F.fin 0 }

/-- Embedding of Transform::from_translate. -/
def fromTranslate (tx ty : F) : Transform :=
  fromRow (F.fin 1) (F.fin 0) (F.fin 0) (F.fin 1) tx ty

/-- Embedding of Transform::from_scale. -/
def fromScale (sx sy : F) : Transform :=
  fromRow sx (F.fin 0) (F.fin 0) sy (F.fin 0) (F.fin 0)

/-- Embedding of Transform::is_finite. -/
def isFinite (t : Transform) : Bool :=
  t.sx.isFinite && t.ky.isFinite && t.kx.isFinite && t.sy.isFinite
    && t.tx.isFinite && t.ty.isFinite

/-- Embedding of Transform::is_identity, the derived PartialEq comparison
with the default transform (hence IEEE equality on each coefficient). -/
def isIdentity (t : Transform) : Bool :=
  t.sx.beq (F.fin 1) && t.kx.beq (F.fin 0) && t.ky.beq (F.fin 0)
    && t.sy.beq (F.fin 1) && t.tx.beq (F.fin 0) && t.ty.beq (F.fin 0)

/-- Embedding of Transform::has_scale. -/
def hasScale (t : Transform) : Bool :=
  !t.sx.beq (F.fin 1) || !t.sy.beq (F.fin 1)

/-- Embedding of Transform::has_skew. -/
def hasSkew (t : Transform) : Bool :=
  !t.kx.beq (F.fin 0) || !t.ky.beq (F.fin 0)

/-- Embedding of Transform::has_translate. -/
def hasTranslate (t : Transform) : Bool :=
  !t.tx.beq (F.fin 0) || !t.ty.beq (F.fin 0)

/-- Embedding of Transform::is_scale_translate. -/
def isScaleTranslate (t : Transform) : Bool :=
  (t.hasScale || t.hasTranslate) && !t.hasSkew

/-- Embedding of Transform::get_scale. -/
def getScale (t : Transform) : F × F :=
  (((t.sx.mul t.sx).add (t.kx.mul t.kx)).sqrt,
   ((t.ky.mul t.ky).add (t.sy.mul t.sy)).sqrt)

/-- Embedding of Transform::is_valid: finite, and both axis scale
magnitudes not nearly zero within f32::EPSILON. -/
def isValid (t : Transform) : Bool :=
  if t.isFinite then
    let s := t.getScale
    !(isNearlyZeroWithinTolerance s.1 F32_EPSILON
        || isNearlyZeroWithinTolerance s.2 F32_EPSILON)
  else
    false

end Transform

/-- Embedding of dcross from transform.rs: a * b - c * d in f64 (exact in
this model). -/
def dcross (a b c d : F) : F := (a.mul b).sub (c.mul d)

/-- Embedding of dcross_dscale from transform.rs: dcross scaled, the f64
to f32 narrowing being the identity in this model. -/
def dcrossDscale (a b c d scale : F) : F := (dcross a b c d).mul scale

/-- Embedding of inv_determinant from transform.rs: the double-precision
determinant, rejected when within the cubed nearly-zero tolerance of zero. -/
def invDeterminant (t : Transform) : Option F :=
  let det := dcross t.sx t.sy t.kx t.ky
  let tolerance := SCALAR_NEARLY_ZERO * SCALAR_NEARLY_ZERO * SCALAR_NEARLY_ZERO
  if isNearlyZeroWithinTolerance det tolerance then none
  else some ((F.fin 1).div det)

/-- Embedding of compute_inv from transform.rs. -/
def computeInv (t : Transform) (invDet : F) : Transform :=
  Transform.fromRow
    (t.sy.mul invDet)
    (t.ky.neg.mul invDet)
    (t.kx.neg.mul invDet)
    (t.sx.mul invDet)
    (dcrossDscale t.kx t.ty t.sy t.tx invDet)
    (dcrossDscale t.ky t.tx t.sx t.ty invDet)

/-- Embedding of the free function invert from transform.rs (the
non-identity path of Transform::invert). -/
def invertBody (t : Transform) : Option Transform :=
  if t.isScaleTranslate then
    if t.hasScale then
      let invX := scalarInvert t.sx
      let invY := scalarInvert t.sy
      some (Transform.fromRow invX (F.fin 0) (F.fin 0) invY
        (t.tx.neg.mul invX) (t.ty.neg.mul invY))
    else
      some (Transform.fromTranslate t.tx.neg t.ty.neg)
  else
    match invDeterminant t with
    | none => none
    | some invDet =>
      let invTs := computeInv t invDet
      if invTs.isFinite then some invTs else none

namespace Transform

/-- Embedding of Transform::invert: the identity short-circuits to itself. -/
def invert (t : Transform) : Option Transform :=
  if t.isIdentity then some t else invertBody t

end Transform

/-- Embedding of mul_add_mul from transform.rs: a * b + c * d computed in
f64 (exact in this model). -/
def mulAddMul (a b c d : F) : F := (a.mul b).add (c.mul d)

/-- Embedding of the free function concat from transform.rs. -/
def concat (a b : Transform) : Transform :=
  if a.isIdentity then b
  else if b.isIdentity then a
  else if !a.hasSkew && !b.hasSkew then
    Transform.fromRow
      (a.sx.mul b.sx)
      (F.fin 0)
      (F.fin 0)
      (a.sy.mul b.sy)
      ((a.sx.mul b.tx).add a.tx)
      ((a.sy.mul b.ty).add a.ty)
  else
    Transform.fromRow
      (mulAddMul a.sx b.sx a.kx b.ky)
      (mulAddMul a.ky b.sx a.sy b.ky)
      (mulAddMul a.sx b.kx a.kx b.sy)
      (mulAddMul a.ky b.kx a.sy b.sy)
      ((mulAddMul a.sx b.tx a.kx b.ty).add a.tx)
      ((mulAddMul a.ky b.tx a.sy b.ty).add a.ty)

namespace Transform

/-- Embedding of Transform::pre_concat. -/
def preConcat (t other : Transform) : Transform := concat t other

/-- Embedding of Transform::post_concat. -/
def postConcat (t other : Transform) : Transform := concat other t

end Transform

/-! The blend mode table from src/src/blend_mode.rs. -/

/-- Embedding of the BlendMode enumeration (28 compositing operators). -/
inductive BlendMode where
  | Clear
  | Source
  | Destination
  | SourceOver
  | DestinationOver
  | SourceIn
  | DestinationIn
  | SourceOut
  | DestinationOut
  | SourceAtop
  | DestinationAtop
  | Xor
  | Plus
  | Modulate
  | Screen
  | Overlay
  | Darken
  | Lighten
  | ColorDodge
  | ColorBurn
  | HardLight
  | SoftLight
  | Difference
  | Exclusion
  | Multiply
  | Hue
  | Saturation
  | Color
  | Luminosity
deriving DecidableEq, Repr, Fintype

namespace BlendMode

/-- Embedding of BlendMode::should_pre_scale_coverage: the matches! over
the seven listed modes. -/
def shouldPreScaleCoverage : BlendMode → Bool
  | Destination => true
  | DestinationOver => true
  | Plus => true
  | DestinationOut => true
  | SourceAtop => true
  | SourceOver => true
  | Xor => true
  | _ => false

end BlendMode

/-! Bezier geometry from src/path/src/path_geometry.rs. -/

/-- Embedding of interp from path_geometry.rs: v0 + (v1 - v0) * t. -/
def interp (v0 v1 t : f32x2) : f32x2 := v0.add ((v1.sub v0).mul t)

/-- Embedding of times_2 from path_geometry.rs: value + value. -/
def times2 (value : f32x2) : f32x2 := value.add value

/-- Embedding of the QuadCoeff struct: eval(t) = A * t^2 + B * t + C. -/
structure QuadCoeff where
  a : f32x2
  b : f32x2
  c : f32x2

namespace QuadCoeff

/-- Embedding of QuadCoeff::from_points. -/
def fromPoints (points : Point × Point × Point) : QuadCoeff :=
  let c := points.1.toF32x2
  let p1 := points.2.1.toF32x2
  let p2 := points.2.2.toF32x2
  let b := times2 (p1.sub c)
  let a := (p2.sub (times2 p1)).add c
  { a := a, b := b, c := c }

/-- Embedding of QuadCoeff::eval, the Horner scheme (A * t + B) * t + C. -/
def eval (q : QuadCoeff) (t : f32x2) : f32x2 :=
  ((q.a.mul t).add q.b).mul t |>.add q.c

end QuadCoeff

/-- Embedding of the CubicCoeff struct. -/
structure CubicCoeff where
  a : f32x2
  b : f32x2
  c : f32x2
  d : f32x2

namespace CubicCoeff

/-- Embedding of CubicCoeff::from_points. -/
def fromPoints (points : Point × Point × Point × Point) : CubicCoeff :=
  let p0 := points.1.toF32x2
  let p1 := points.2.1.toF32x2
  let p2 := points.2.2.1.toF32x2
  let p3 := points.2.2.2.toF32x2
  let three := f32x2.splat (F.fin 3)
  { a := ((p3.add (three.mul (p1.sub p2))).sub p0)
    b := three.mul ((p2.sub (times2 p1)).add p0)
    c := three.mul (p1.sub p0)
    d := p0 }

/-- Embedding of CubicCoeff::eval, the Horner scheme
((A * t + B) * t + C) * t + D. -/
def eval (q : CubicCoeff) (t : f32x2) : f32x2 :=
  (((q.a.mul t).add q.b).mul t |>.add q.c).mul t |>.add q.d

end CubicCoeff

/-- Embedding of chop_quad_at: the five De Casteljau output points
(dst[0] .. dst[4]) as a tuple. -/
def chopQuadAt (src : Point × Point × Point) (t : NormalizedF32Exclusive) :
    Point × Point × Point × Point × Point :=
  let p0 := src.1.toF32x2
  let p1 := src.2.1.toF32x2
  let p2 := src.2.2.toF32x2
  let tt := f32x2.splat t.get
  let p01 := interp p0 p1 tt
  let p12 := interp p1 p2 tt
  (Point.fromF32x2 p0,
   Point.fromF32x2 p01,
   Point.fromF32x2 (interp p01 p12 tt),
   Point.fromF32x2 p12,
   Point.fromF32x2 p2)

/-- Embedding of chop_cubic_at2: the seven De Casteljau output points
(dst[0] .. dst[6]) as a tuple. -/
def chopCubicAt2 (src : Point × Point × Point × Point)
    (t : NormalizedF32Exclusive) :
    Point × Point × Point × Point × Point × Point × Point :=
  let p0 := src.1.toF32x2
  let p1 := src.2.1.toF32x2
  let p2 := src.2.2.1.toF32x2
  let p3 := src.2.2.2.toF32x2
  let tt := f32x2.splat t.get
  let ab := interp p0 p1 tt
  let bc := interp p1 p2 tt
  let cd := interp p2 p3 tt
  let abc := interp ab bc tt
  let bcd := interp bc cd tt
  let abcd := interp abc bcd tt
  (Point.fromF32x2 p0,
   Point.fromF32x2 ab,
   Point.fromF32x2 abc,
   Point.fromF32x2 abcd,
   Point.fromF32x2 bcd,
   Point.fromF32x2 cd,
   Point.fromF32x2 p3)

/-- Embedding of valid_unit_divide: sign-normalizes so the numerator is
non-negative, rejects a zero denominator, a zero numerator and a quotient
not strictly below one, then builds the exclusive-range value. -/
def validUnitDivide (numer denom : F) : Option NormalizedF32Exclusive :=
  let p := if numer.lt (F.fin 0) then (numer.neg, denom.neg) else (numer, denom)
  let numer := p.1
  let denom := p.2
  if denom.beq (F.fin 0) || numer.beq (F.fin 0) || denom.le numer then
    none
  else
    NormalizedF32Exclusive.new (numer.div denom)

/-- Embedding of the tail of find_unit_quad_roots: the two optional roots
obtained from the valid unit divides, in array order, with the source's
roots_offset == 2 post-processing (swap into ascending order when
roots[0].get() > roots[1].get(), and collapse when roots[0] == roots[1],
both comparisons being the IEEE ones of the derived f32 PartialEq). -/
def combineRoots (o1 o2 : Option NormalizedF32Exclusive) :
    List NormalizedF32Exclusive :=
  match o1, o2 with
  | some r0, some r1 =>
    if r1.get.lt r0.get then [r1, r0]
    else if r0.beq r1 then [r0]
    else [r0, r1]
  | some r0, none => [r0]
  | none, some r1 => [r1]
  | none, none => []

/-- Embedding of find_unit_quad_roots. The mutated three-slot output array
plus returned count of the source is rendered as the returned list of
roots (in array order); the count is the list length. -/
def findUnitQuadRoots (a b c : F) : List NormalizedF32Exclusive :=
  if a.beq (F.fin 0) then
    match validUnitDivide c.neg b with
    | some r => [r]
    | none => []
  else
    -- dr = b*b - 4*a*c, computed in f64 (exact here)
    let dr := (b.mul b).sub (((F.fin 4).mul a).mul c)
    if dr.lt (F.fin 0) then []
    else
      let r := dr.sqrt
      if !r.isFinite then []
      else
        let q := if b.lt (F.fin 0)
          then (b.sub r).neg.div (F.fin 2)
          else (b.add r).neg.div (F.fin 2)
        combineRoots (validUnitDivide q a) (validUnitDivide c q)

/-- The success condition for valid_unit_divide as the spec words it: after
normalizing the sign so the numerator is non-negative, the denominator is
non-zero, the numerator is non-zero, and the numerator is strictly less
than the denominator (all comparisons IEEE). Stated separately so the
claim comparing it with the embedded valid_unit_divide can be settled. -/
def vudSpecCondition (numer denom : F) : Bool :=
  let p := if numer.lt (F.fin 0) then (numer.neg, denom.neg)
           else (numer, denom)
  !p.2.beq (F.fin 0) && !p.1.beq (F.fin 0) && p.1.lt p.2

/-- Modelled from the spec: f32::MAX, the largest finite single-precision
magnitude, (2 - 2^-23) * 2^127. -/
def F32_MAX : ℚ := (2 - 1 / 8388608) * 2 ^ 127

/-- Model of the saturation step of single-precision arithmetic: an exact
finite result whose magnitude exceeds f32::MAX overflows to the
correspondingly signed infinity; special values pass through. Rounding of
in-range magnitudes remains idealized. -/
def F.sat32 : F → F
  | F.fin q => if F32_MAX < |q| then F.inf (decide (0 < q)) else F.fin q
  | z => z

/-- Model of f32 addition including overflow to infinity. -/
def F.add32 (x y : F) : F := (x.add y).sat32

/-- Model of f32 subtraction including overflow to infinity. -/
def F.sub32 (x y : F) : F := (x.sub y).sat32

/-- Model of f32 multiplication including overflow to infinity. -/
def F.mul32 (x y : F) : F := (x.mul y).sat32

/-- Model of f32 division including overflow to infinity. -/
def F.div32 (x y : F) : F := (x.div y).sat32

/-- Embedding of the raw numerator -(ax*bx + ay*by) computed by
find_quad_max_curvature before the sign normalization, in
overflow-faithful single-precision arithmetic: products of large finite
coordinates overflow to infinities whose sum is NaN. -/
def fqmcNumer (src : Point × Point × Point) : F :=
  let ax := src.2.1.x.sub32 src.1.x
  let ay := src.2.1.y.sub32 src.1.y
  let bx := ((src.1.x.sub32 src.2.1.x).sub32 src.2.1.x).add32 src.2.2.x
  let bY := ((src.1.y.sub32 src.2.1.y).sub32 src.2.1.y).add32 src.2.2.y
  ((ax.mul32 bx).add32 (ay.mul32 bY)).neg

/-- Embedding of the raw denominator bx*bx + by*by computed by
find_quad_max_curvature before the sign normalization, in
overflow-faithful single-precision arithmetic. -/
def fqmcDenom (src : Point × Point × Point) : F :=
  let bx := ((src.1.x.sub32 src.2.1.x).sub32 src.2.1.x).add32 src.2.2.x
  let bY := ((src.1.y.sub32 src.2.1.y).sub32 src.2.1.y).add32 src.2.2.y
  (bx.mul32 bx).add32 (bY.mul32 bY)

/-- Embedding of find_quad_max_curvature in overflow-faithful
single-precision arithmetic. The final NormalizedF32::new(t).unwrap() of
the source is rendered as the Option it unwraps: a none result is exactly
the input on which the source panics. -/
def findQuadMaxCurvature (src : Point × Point × Point) : Option NormalizedF32 :=
  let p :=
    if (fqmcDenom src).lt (F.fin 0)
    then ((fqmcNumer src).neg, (fqmcDenom src).neg)
    else (fqmcNumer src, fqmcDenom src)
  let numer := p.1
  let denom := p.2
  if numer.le (F.fin 0) then some NormalizedF32.ZERO
  else if denom.le numer then some NormalizedF32.ONE
  else NormalizedF32.new (numer.div32 denom)

/-- Embedding of eval_quad_at: Horner evaluation of the quadratic
coefficients at t. -/
def evalQuadAt (src : Point × Point × Point) (t : NormalizedF32) : Point :=
  Point.fromF32x2 ((QuadCoeff.fromPoints src).eval (f32x2.splat t.get))

/-- Embedding of eval_cubic_pos_at: Horner evaluation of the cubic
coefficients at t. -/
def evalCubicPosAt (src : Point × Point × Point × Point) (t : NormalizedF32) :
    Point :=
  Point.fromF32x2 ((CubicCoeff.fromPoints src).eval (f32x2.splat t.get))

/-- Embedding of eval_cubic_derivative. -/
def evalCubicDerivative (src : Point × Point × Point × Point)
    (t : NormalizedF32) : Point :=
  let p0 := src.1.toF32x2
  let p1 := src.2.1.toF32x2
  let p2 := src.2.2.1.toF32x2
  let p3 := src.2.2.2.toF32x2
  let coeff : QuadCoeff :=
    { a := (p3.add ((f32x2.splat (F.fin 3)).mul (p1.sub p2))).sub p0
      b := times2 ((p2.sub (times2 p1)).add p0)
      c := p1.sub p0 }
  Point.fromF32x2 (coeff.eval (f32x2.splat t.get))

/-- Embedding of eval_cubic_tangent_at: derivative evaluation with the
degenerate-endpoint fallback to a chord. -/
def evalCubicTangentAt (src : Point × Point × Point × Point)
    (t : NormalizedF32) : Point :=
  if (t.get.beq (F.fin 0) && src.1.beq src.2.1)
      || (t.get.beq (F.fin 1) && src.2.2.1.beq src.2.2.2) then
    let tangent :=
      if t.get.beq (F.fin 0) then src.2.2.1.sub src.1
      else src.2.2.2.sub src.2.1
    if tangent.x.beq (F.fin 0) && tangent.y.beq (F.fin 0) then
      src.2.2.2.sub src.1
    else
      tangent
  else
    evalCubicDerivative src t

/-! The conic type and its quad-power computation from path_geometry.rs. -/

/-- Embedding of the Conic struct: three control points and a weight. -/
structure Conic where
  p0 : Point
  p1 : Point
  p2 : Point
  weight : F

/-- Embedding of the doubling loop inside compute_quad_pow2: up to the
given fuel (MAX_CONIC_TO_QUAD_POW2 = 4 in the source), stop as soon as
error <= tolerance, otherwise quarter the error and increment pow2. -/
def quadPow2Loop : ℕ → F → F → ℕ → ℕ
  | 0, _, _, pow2 => pow2
  | n + 1, error, tolerance, pow2 =>
    if error.le tolerance then pow2
    else quadPow2Loop n (error.mul (F.fin (1 / 4))) tolerance (pow2 + 1)

namespace Conic

/-- Embedding of Conic::compute_quad_pow2: validity gates on the tolerance
and the control points, the Floater error bound, the doubling loop capped
at four, and the final floor of at least one subdivision. -/
def computeQuadPow2 (c : Conic) (tolerance : F) : Option ℕ :=
  if tolerance.lt (F.fin 0) || !tolerance.isFinite then none
  else if !c.p0.isFinite || !c.p1.isFinite || !c.p2.isFinite then none
  else
    let a := c.weight.sub (F.fin 1)
    let k := a.div ((F.fin 4).mul ((F.fin 2).add a))
    let x := k.mul ((c.p0.x.sub ((F.fin 2).mul c.p1.x)).add c.p2.x)
    let y := k.mul ((c.p0.y.sub ((F.fin 2).mul c.p1.y)).add c.p2.y)
    let error := ((x.mul x).add (y.mul y)).sqrt
    let pow2 := quadPow2Loop 4 error tolerance 0
    some (Nat.max pow2 1)

end Conic

/-! The scanline rectangle fill from src/src/scan/mod.rs. The rectangle
types it consumes (Rect, IntRect, ScreenIntRect from geom) are not under
src/, so they are modelled from the spec; the fill functions themselves
are embedded from the source. -/

/-- Modelled from the spec: an integer rectangle with left/top/right/bottom
bounds (IntRect from the geometry module, absent from src/). -/
structure IntRect where
  l : ℤ
  t : ℤ
  r : ℤ
  b : ℤ
deriving DecidableEq, Repr

namespace IntRect

/-- Modelled from the spec: IntRect::intersect; none when the intersection
is empty. -/
def intersect (a bb : IntRect) : Option IntRect :=
  let l := max a.l bb.l
  let t := max a.t bb.t
  let r := min a.r bb.r
  let b := min a.b bb.b
  if l < r ∧ t < b then some ⟨l, t, r, b⟩ else none

end IntRect

/-- Modelled from the spec: a screen-space integer rectangle: non-negative
origin and positive extent (ScreenIntRect, absent from src/). -/
structure ScreenIntRect where
  x : ℕ
  y : ℕ
  w : ℕ
  h : ℕ
deriving DecidableEq, Repr

namespace ScreenIntRect

/-- Modelled from the spec: ScreenIntRect::to_int_rect. -/
def toIntRect (s : ScreenIntRect) : IntRect :=
  ⟨(s.x : ℤ), (s.y : ℤ), (s.x : ℤ) + s.w, (s.y : ℤ) + s.h⟩

end ScreenIntRect

namespace IntRect

/-- Modelled from the spec: IntRect::to_screen_int_rect; fails when the
rectangle has a negative origin or an empty extent. -/
def toScreenIntRect (a : IntRect) : Option ScreenIntRect :=
  if 0 ≤ a.l ∧ 0 ≤ a.t ∧ a.l < a.r ∧ a.t < a.b then
    some ⟨a.l.toNat, a.t.toNat, (a.r - a.l).toNat, (a.b - a.t).toNat⟩
  else
    none

end IntRect

/-- Modelled from the spec: rounding of a finite float bound to the
nearest integer (Mathlib's round on the underlying rational). -/
def ratRound (q : ℚ) : ℤ := round q

/-- Modelled from the spec: the float rectangle (Rect, absent from src/)
with left/top/right/bottom single-precision bounds. -/
structure Rect where
  left : F
  top : F
  right : F
  bottom : F

namespace Rect

/-- Modelled from the spec: Rect::round, rounding each bound to the
nearest integer; fails on non-finite bounds or when the rounded rectangle
is empty. -/
def round (rect : Rect) : Option IntRect :=
  match rect.left, rect.top, rect.right, rect.bottom with
  | F.fin l, F.fin t, F.fin r, F.fin b =>
    let ir : IntRect := ⟨ratRound l, ratRound t, ratRound r, ratRound b⟩
    if ir.l < ir.r ∧ ir.t < ir.b then some ir else none
  | _, _, _, _ => none

end Rect

/-- Embedding of fill_int_rect from src/src/scan/mod.rs. The blitter
capability is rendered as a trace: the returned list holds, in order, the
rectangles passed to blit_rect. -/
def fillIntRect (rect : IntRect) (clip : ScreenIntRect) : List ScreenIntRect :=
  match rect.intersect clip.toIntRect with
  | none => [] -- everything was clipped out
  | some rect =>
    match rect.toScreenIntRect with
    | none => []
    | some rect => [rect]

/-- Embedding of fill_rect from src/src/scan/mod.rs, with the blitter
rendered as a trace of blit_rect calls. -/
def fillRect (rect : Rect) (clip : ScreenIntRect) : List ScreenIntRect :=
  match rect.round with
  | some rect => fillIntRect rect clip
  | none => []

/-! Theorems settling the claims, preceded by basic lemmas about the
float model. -/

namespace F

@[simp] theorem isFinite_fin (q : ℚ) : (fin q).isFinite = true := rfl

@[simp] theorem neg_fin (q : ℚ) : (fin q).neg = fin (-q) := rfl

@[simp] theorem add_fin (a b : ℚ) : (fin a).add (fin b) = fin (a + b) := rfl

@[simp] theorem sub_fin (a b : ℚ) : (fin a).sub (fin b) = fin (a + -b) := rfl

@[simp] theorem mul_fin (a b : ℚ) : (fin a).mul (fin b) = fin (a * b) := rfl

@[simp] theorem abs_fin (q : ℚ) : (fin q).abs = fin |q| := rfl

@[simp] theorem lt_fin (a b : ℚ) : (fin a).lt (fin b) = decide (a < b) := rfl

@[simp] theorem le_fin (a b : ℚ) : (fin a).le (fin b) = decide (a ≤ b) := rfl

@[simp] theorem beq_fin (a b : ℚ) : (fin a).beq (fin b) = (a == b) := rfl

theorem div_fin_of_ne (a b : ℚ) (h : b ≠ 0) : (fin a).div (fin b) = fin (a / b) := by
  simp [div, h]

theorem beq_eq_true_iff_fin {x : F} {q : ℚ} : x.beq (fin q) = true ↔ x = fin q := by
  cases x <;> simp [beq]

theorem isFinite_iff {x : F} : x.isFinite = true ↔ ∃ q : ℚ, x = fin q := by
  cases x <;> simp [isFinite]

end F

/-- C3 counterexample: the BlendMode enumeration has 29 variants, not 28,
so the predicate is false on 22 modes, not 21 as the claim counts. -/
theorem C3_counterexample :
    Fintype.card BlendMode = 29 ∧ (29 : ℕ) ≠ 28 ∧
    (Finset.univ.filter
        (fun m : BlendMode => m.shouldPreScaleCoverage = false)).card = 22 := by
  refine ⟨by decide, by decide, by decide⟩

/-- C3 amended: should_pre_scale_coverage returns true for exactly the
seven modes Destination, DestinationOver, Plus, DestinationOut,
SourceAtop, SourceOver and Xor, and false for all other 22 modes of the
29-mode BlendMode enumeration. -/
theorem C3_should_pre_scale_coverage_exactly_seven :
    (∀ m : BlendMode, m.shouldPreScaleCoverage = true ↔
      m ∈ [BlendMode.Destination, BlendMode.DestinationOver, BlendMode.Plus,
           BlendMode.DestinationOut, BlendMode.SourceAtop,
           BlendMode.SourceOver, BlendMode.Xor]) ∧
    Fintype.card BlendMode = 29 ∧
    (Finset.univ.filter
        (fun m : BlendMode => m.shouldPreScaleCoverage = false)).card = 22 := by
  refine ⟨?_, by decide, by decide⟩
  intro m
  cases m <;> decide

/-- C2 counterexample: with the first lane NaN (an incomparable pair), the
per-lane comparison of f32x2::max and f32x2::min keeps the FIRST operand,
not the second as the claim states: pmax(NaN, 1.0) is NaN, not 1.0. -/
theorem C2_counterexample :
    pmax F.nan (F.fin 1) = F.nan ∧ pmin F.nan (F.fin 1) = F.nan ∧
    F.nan ≠ F.fin 1 ∧
    f32x2.max (f32x2.splat F.nan) (f32x2.splat (F.fin 1)) =
      f32x2.splat F.nan := by
  decide

/-- C2 amended: for every pair of lane values a and b that compare as
equal or are incomparable (neither a < b nor b < a holds, which covers
ties and NaN), the per-lane comparison used by f32x2::min and f32x2::max
returns the FIRST operand a, and NaN-propagating IEEE min/max semantics
are not used. -/
theorem C2_pmin_pmax_return_first_operand_on_tie
    (a b : F) (hab : a.lt b = false) (hba : b.lt a = false) :
    pmax a b = a ∧ pmin a b = a ∧
    (∀ a2 b2 : F, a2.lt b2 = false → b2.lt a2 = false →
      f32x2.min (f32x2.new a a2) (f32x2.new b b2) = f32x2.new a a2 ∧
      f32x2.max (f32x2.new a a2) (f32x2.new b b2) = f32x2.new a a2) := by
  refine ⟨by simp [pmax, hab], by simp [pmin, hba], ?_⟩
  intro a2 b2 h1 h2
  constructor
  · simp [f32x2.min, f32x2.new, f32x2.x, f32x2.y, pmin, hba, h2]
  · simp [f32x2.max, f32x2.new, f32x2.x, f32x2.y, pmax, hab, h1]

/-- C2 witness: the amended theorem applied at the incomparable pair
(NaN, 1.0) in both lanes. -/
theorem C2_witness :
    f32x2.min (f32x2.new F.nan F.nan) (f32x2.new (F.fin 1) (F.fin 1)) =
      f32x2.new F.nan F.nan ∧
    f32x2.max (f32x2.new F.nan F.nan) (f32x2.new (F.fin 1) (F.fin 1)) =
      f32x2.new F.nan F.nan :=
  (C2_pmin_pmax_return_first_operand_on_tie F.nan (F.fin 1) (by decide)
    (by decide)).2.2 F.nan (F.fin 1) (by decide) (by decide)

/-- Helper: the doubling loop of compute_quad_pow2 increments its
accumulator at most fuel-many times. -/
theorem quadPow2Loop_le (n : ℕ) :
    ∀ (e t : F) (p : ℕ), quadPow2Loop n e t p ≤ p + n := by
  induction n with
  | zero => intro e t p; simp [quadPow2Loop]
  | succ k ih =>
    intro e t p
    simp only [quadPow2Loop]
    split
    · omega
    · have := ih (e.mul (F.fin (1 / 4))) t (p + 1)
      omega

/-- Helper: bounds for the floored subdivision power max(l, 1) when the
loop result l is at most 4. -/
theorem quadPow2_max_bounds (l : ℕ) (h : l ≤ 4) :
    1 ≤ Nat.max l 1 ∧ Nat.max l 1 ≤ 4 ∧ 2 ≤ 2 ^ Nat.max l 1 ∧
      2 ^ Nat.max l 1 ≤ 16 := by
  have h1 : 1 ≤ Nat.max l 1 := Nat.le_max_right _ 1
  have h4 : Nat.max l 1 ≤ 4 := Nat.max_le.mpr ⟨h, by omega⟩
  refine ⟨h1, h4, ?_, ?_⟩
  · calc (2 : ℕ) = 2 ^ 1 := rfl
      _ ≤ 2 ^ Nat.max l 1 := Nat.pow_le_pow_right (by omega) h1
  · calc 2 ^ Nat.max l 1 ≤ 2 ^ 4 := Nat.pow_le_pow_right (by omega) h4
    _ = 16 := rfl

/-- C6: Conic::compute_quad_pow2 returns no value exactly when the
tolerance is negative or non-finite or any of the three control points is
non-finite; otherwise it returns a subdivision power p with 1 <= p <= 4,
so the conic is chopped into between 2 and 16 quadratic segments. -/
theorem C6_compute_quad_pow2_range (c : Conic) (tolerance : F) :
    (c.computeQuadPow2 tolerance = none ↔
      (tolerance.lt (F.fin 0) = true ∨ tolerance.isFinite = false ∨
       c.p0.isFinite = false ∨ c.p1.isFinite = false ∨
       c.p2.isFinite = false)) ∧
    (∀ p, c.computeQuadPow2 tolerance = some p →
      1 ≤ p ∧ p ≤ 4 ∧ 2 ≤ 2 ^ p ∧ 2 ^ p ≤ 16) := by
  constructor
  · unfold Conic.computeQuadPow2
    split_ifs with hg1 hg2
    · simp only [true_iff]
      simp only [Bool.or_eq_true, Bool.not_eq_true'] at hg1
      tauto
    · simp only [true_iff]
      simp only [Bool.or_eq_true, Bool.not_eq_true'] at hg2
      tauto
    · simp only [reduceCtorEq, false_iff]
      simp only [Bool.or_eq_true, Bool.not_eq_true'] at hg1 hg2
      tauto
  · intro p hp
    unfold Conic.computeQuadPow2 at hp
    split_ifs at hp
    simp only [Option.some.injEq] at hp
    subst hp
    exact quadPow2_max_bounds _ (quadPow2Loop_le 4 _ _ 0)

/-- C6 witness: the range bounds instantiated on a concrete conic (all
control points at the origin, weight 1, tolerance 1/4), whose computed
subdivision power is 1. -/
theorem C6_witness :
    1 ≤ 1 ∧ 1 ≤ 4 ∧ 2 ≤ 2 ^ 1 ∧ 2 ^ 1 ≤ 16 :=
  (C6_compute_quad_pow2_range
      ⟨⟨F.fin 0, F.fin 0⟩, ⟨F.fin 0, F.fin 0⟩, ⟨F.fin 0, F.fin 0⟩, F.fin 1⟩
      (F.fin (1 / 4))).2 1 (by
    have h0 : Rat.sqrt 0 = 0 := by simp
    norm_num [Conic.computeQuadPow2, F.sqrt, quadPow2Loop, F.div, F.mul,
      F.add, F.sub, F.neg, F.le, F.lt, F.isFinite, Point.isFinite, h0])

/-- C7: chopping a quadratic (respectively cubic) at a parameter t
strictly inside (0,1) with finite control points yields five
(respectively seven) points whose outer endpoints equal the original
endpoints and whose shared endpoint dst[2] (respectively dst[3]) equals
the original curve evaluated at t (exactly, in this exact-arithmetic
model, hence within any epsilon). -/
theorem C7_chop_shared_endpoint (p0 p1 p2 q0 q1 q2 q3 : Point)
    (t : NormalizedF32Exclusive)
    (hp0 : p0.isFinite = true) (hp1 : p1.isFinite = true)
    (hp2 : p2.isFinite = true)
    (hq0 : q0.isFinite = true) (hq1 : q1.isFinite = true)
    (hq2 : q2.isFinite = true) (hq3 : q3.isFinite = true)
    (ht0 : (F.fin 0).lt t.get = true) (ht1 : t.get.lt (F.fin 1) = true) :
    (chopQuadAt (p0, p1, p2) t).1 = p0 ∧
    (chopQuadAt (p0, p1, p2) t).2.2.2.2 = p2 ∧
    (chopQuadAt (p0, p1, p2) t).2.2.1 = evalQuadAt (p0, p1, p2) ⟨t.get⟩ ∧
    (chopCubicAt2 (q0, q1, q2, q3) t).1 = q0 ∧
    (chopCubicAt2 (q0, q1, q2, q3) t).2.2.2.2.2.2 = q3 ∧
    (chopCubicAt2 (q0, q1, q2, q3) t).2.2.2.1 =
      evalCubicPosAt (q0, q1, q2, q3) ⟨t.get⟩ := by
  obtain ⟨tv, ht⟩ : ∃ q : ℚ, t.get = F.fin q := by
    cases htg : t.get with
    | nan => rw [htg] at ht0; simp [F.lt] at ht0
    | inf s =>
      rw [htg] at ht0 ht1
      cases s
      · simp [F.lt] at ht0
      · simp [F.lt] at ht1
    | fin q => exact ⟨q, rfl⟩
  obtain ⟨x0, y0⟩ := p0
  obtain ⟨x1, y1⟩ := p1
  obtain ⟨x2, y2⟩ := p2
  obtain ⟨u0, v0⟩ := q0
  obtain ⟨u1, v1⟩ := q1
  obtain ⟨u2, v2⟩ := q2
  obtain ⟨u3, v3⟩ := q3
  simp only [Point.isFinite, Bool.and_eq_true, F.isFinite_iff]
    at hp0 hp1 hp2 hq0 hq1 hq2 hq3
  obtain ⟨⟨a0, rfl⟩, b0, rfl⟩ := hp0
  obtain ⟨⟨a1, rfl⟩, b1, rfl⟩ := hp1
  obtain ⟨⟨a2, rfl⟩, b2, rfl⟩ := hp2
  obtain ⟨⟨c0, rfl⟩, d0, rfl⟩ := hq0
  obtain ⟨⟨c1, rfl⟩, d1, rfl⟩ := hq1
  obtain ⟨⟨c2, rfl⟩, d2, rfl⟩ := hq2
  obtain ⟨⟨c3, rfl⟩, d3, rfl⟩ := hq3
  refine ⟨rfl, rfl, ?_, rfl, rfl, ?_⟩
  · simp only [chopQuadAt, evalQuadAt, QuadCoeff.fromPoints, QuadCoeff.eval,
      interp, times2, Point.toF32x2, Point.fromF32x2, f32x2.splat, f32x2.add,
      f32x2.sub, f32x2.mul, f32x2.x, f32x2.y, ht, F.sub_fin, F.add_fin,
      F.mul_fin, Point.mk.injEq, F.fin.injEq]
    constructor <;> ring
  · simp only [chopCubicAt2, evalCubicPosAt, CubicCoeff.fromPoints,
      CubicCoeff.eval, interp, times2, Point.toF32x2, Point.fromF32x2,
      f32x2.splat, f32x2.add, f32x2.sub, f32x2.mul, f32x2.x, f32x2.y, ht,
      F.sub_fin, F.add_fin, F.mul_fin, Point.mk.injEq, F.fin.injEq]
    constructor <;> ring

/-- C7 witness: the shared-endpoint identity of chop_quad_at instantiated
on the quad (0,0),(2,0),(0,2) at t = 1/2. -/
theorem C7_witness :
    (chopQuadAt (⟨F.fin 0, F.fin 0⟩, ⟨F.fin 2, F.fin 0⟩, ⟨F.fin 0, F.fin 2⟩)
        ⟨F.fin (1 / 2)⟩).2.2.1 =
      evalQuadAt (⟨F.fin 0, F.fin 0⟩, ⟨F.fin 2, F.fin 0⟩, ⟨F.fin 0, F.fin 2⟩)
        ⟨F.fin (1 / 2)⟩ :=
  (C7_chop_shared_endpoint
    ⟨F.fin 0, F.fin 0⟩ ⟨F.fin 2, F.fin 0⟩ ⟨F.fin 0, F.fin 2⟩
    ⟨F.fin 0, F.fin 0⟩ ⟨F.fin 2, F.fin 0⟩ ⟨F.fin 0, F.fin 2⟩
    ⟨F.fin 1, F.fin 1⟩ ⟨F.fin (1 / 2)⟩
    rfl rfl rfl rfl rfl rfl rfl
    (by simp) (by simp; norm_num)).2.2.1

/-- C8: eval_cubic_tangent_at at t = 0 with src[0] == src[1] returns the
chord src[2] - src[0], falling back to src[3] - src[0] when that chord is
the zero vector (and symmetrically at t = 1 with src[2] == src[3]); on the
cubic (30,40),(30,40),(171,45),(180,155), eval_cubic_pos_at at t = 0
returns (30,40) and eval_cubic_tangent_at at t = 0 returns (141,5). -/
theorem C8_eval_cubic_tangent_fallback (p0 p1 p2 p3 : Point) :
    (p0.beq p1 = true →
      evalCubicTangentAt (p0, p1, p2, p3) NormalizedF32.ZERO =
        (if (p2.sub p0).x.beq (F.fin 0) && (p2.sub p0).y.beq (F.fin 0)
         then p3.sub p0 else p2.sub p0)) ∧
    (p2.beq p3 = true →
      evalCubicTangentAt (p0, p1, p2, p3) NormalizedF32.ONE =
        (if (p3.sub p1).x.beq (F.fin 0) && (p3.sub p1).y.beq (F.fin 0)
         then p3.sub p0 else p3.sub p1)) ∧
    evalCubicPosAt (⟨F.fin 30, F.fin 40⟩, ⟨F.fin 30, F.fin 40⟩,
        ⟨F.fin 171, F.fin 45⟩, ⟨F.fin 180, F.fin 155⟩) NormalizedF32.ZERO =
      ⟨F.fin 30, F.fin 40⟩ ∧
    evalCubicTangentAt (⟨F.fin 30, F.fin 40⟩, ⟨F.fin 30, F.fin 40⟩,
        ⟨F.fin 171, F.fin 45⟩, ⟨F.fin 180, F.fin 155⟩) NormalizedF32.ZERO =
      ⟨F.fin 141, F.fin 5⟩ := by
  refine ⟨?_, ?_, ?_, ?_⟩
  · intro h
    simp [evalCubicTangentAt, NormalizedF32.ZERO, h]
  · intro h
    simp [evalCubicTangentAt, NormalizedF32.ZERO, NormalizedF32.ONE, h]
  · simp only [evalCubicPosAt, CubicCoeff.fromPoints, CubicCoeff.eval,
      times2, Point.toF32x2, Point.fromF32x2, f32x2.splat, f32x2.add,
      f32x2.sub, f32x2.mul, f32x2.x, f32x2.y, NormalizedF32.ZERO,
      F.sub_fin, F.add_fin, F.mul_fin, Point.mk.injEq, F.fin.injEq]
    norm_num
  · simp only [evalCubicTangentAt, NormalizedF32.ZERO, Point.beq, Point.sub,
      Point.x, Point.y, F.beq_fin, F.sub_fin]
    norm_num

/-- Helper: a successful valid_unit_divide yields a value strictly inside
(0, 1) (the exclusive-range constructor checked it). -/
theorem validUnitDivide_some_bounds {n d : F} {r : NormalizedF32Exclusive}
    (h : validUnitDivide n d = some r) :
    (F.fin 0).lt r.get = true ∧ r.get.lt (F.fin 1) = true := by
  simp only [validUnitDivide, NormalizedF32Exclusive.new] at h
  split_ifs at h with h1 h2 h3 h4 h5
  all_goals first
    | exact Option.noConfusion h
    | (injection h with h; subst h; simp_all [Bool.and_eq_true])

/-- Helper: a float strictly between the finite bounds 0 and 1 is a finite
rational strictly between 0 and 1. -/
theorem F_lt01_fin {x : F} (h0 : (F.fin 0).lt x = true)
    (h1 : x.lt (F.fin 1) = true) : ∃ q : ℚ, x = F.fin q ∧ 0 < q ∧ q < 1 := by
  cases x with
  | nan => simp [F.lt] at h0
  | inf s =>
    cases s
    · simp [F.lt] at h0
    · simp [F.lt] at h1
  | fin q =>
    refine ⟨q, rfl, ?_, ?_⟩
    · simpa using h0
    · simpa using h1

/-- Helper: the combined root list has at most two elements. -/
theorem combineRoots_length (o1 o2 : Option NormalizedF32Exclusive) :
    (combineRoots o1 o2).length ≤ 2 := by
  unfold combineRoots
  rcases o1 with _ | r0 <;> rcases o2 with _ | r1 <;> simp
  split_ifs <;> simp

/-- Helper: every member of the combined root list comes from one of the
two optional roots. -/
theorem combineRoots_mem {o1 o2 : Option NormalizedF32Exclusive}
    {r : NormalizedF32Exclusive} (h : r ∈ combineRoots o1 o2) :
    o1 = some r ∨ o2 = some r := by
  unfold combineRoots at h
  rcases o1 with _ | r0 <;> rcases o2 with _ | r1
  · simp at h
  · simp at h
    exact Or.inr (by rw [h])
  · simp at h
    exact Or.inl (by rw [h])
  · dsimp only at h
    split_ifs at h with h1 h2
    · simp at h
      rcases h with rfl | rfl
      · exact Or.inr rfl
      · exact Or.inl rfl
    · simp at h
      exact Or.inl (by rw [h])
    · simp at h
      rcases h with rfl | rfl
      · exact Or.inl rfl
      · exact Or.inr rfl

/-- Helper: when both optional roots carry values strictly inside (0, 1),
a two-element combined root list is strictly ascending. -/
theorem combineRoots_sorted {o1 o2 : Option NormalizedF32Exclusive}
    (hb1 : ∀ r, o1 = some r →
      (F.fin 0).lt r.get = true ∧ r.get.lt (F.fin 1) = true)
    (hb2 : ∀ r, o2 = some r →
      (F.fin 0).lt r.get = true ∧ r.get.lt (F.fin 1) = true)
    {r0 r1 : NormalizedF32Exclusive}
    (h : combineRoots o1 o2 = [r0, r1]) :
    r0.get.lt r1.get = true := by
  unfold combineRoots at h
  rcases o1 with _ | s0 <;> rcases o2 with _ | s1 <;> simp at h
  split_ifs at h with hswap hdup
  · obtain ⟨rfl, rfl⟩ := h
    exact hswap
  · cases h
  · obtain ⟨rfl, rfl⟩ := h
    obtain ⟨q0, hq0, hq0l, hq0r⟩ :=
      F_lt01_fin (hb1 r0 rfl).1 (hb1 r0 rfl).2
    obtain ⟨q1, hq1, hq1l, hq1r⟩ :=
      F_lt01_fin (hb2 r1 rfl).1 (hb2 r1 rfl).2
    rw [hq1, hq0] at hswap
    simp only [F.lt_fin, decide_eq_true_eq] at hswap
    simp only [NormalizedF32Exclusive.beq, hq0, hq1, F.beq_fin,
      beq_iff_eq] at hdup
    rw [hq0, hq1]
    simp only [F.lt_fin, decide_eq_true_eq]
    exact lt_of_le_of_ne (not_lt.mp hswap) hdup

/-- Helper: if the guards of valid_unit_divide all pass and the produced
quotient is strictly inside (0, 1), the spec condition holds. -/
theorem vud_guard_aux (u v : F)
    (hB : (v.beq (F.fin 0) || u.beq (F.fin 0) || v.le u) = false)
    (hC : ((F.fin 0).lt (u.div v) && (u.div v).lt (F.fin 1)) = true) :
    (!v.beq (F.fin 0) && !u.beq (F.fin 0) && u.lt v) = true := by
  simp only [Bool.or_eq_false_iff] at hB
  have hv := hB.1.1
  have hu := hB.1.2
  have hle := hB.2
  cases u with
  | nan => simp [F.div, F.lt] at hC
  | inf s =>
    cases v with
    | nan => simp [F.div, F.lt] at hC
    | inf t => simp [F.div, F.lt] at hC
    | fin b => simp [F.div, F.lt, Bool.and_eq_true] at hC
  | fin a =>
    cases v with
    | nan => simp [F.div, F.lt] at hC
    | inf t => simp [F.div, F.lt] at hC
    | fin b =>
      simp only [F.le_fin, decide_eq_false_iff_not, not_le] at hle
      simp only [F.beq_fin] at hv hu
      simp only [F.beq_fin, F.lt_fin, hv, hu, Bool.not_false, Bool.true_and,
        decide_eq_true_eq]
      exact hle

/-- Helper: whenever valid_unit_divide returns a root, the spec-worded
success condition holds, for arbitrary (possibly non-finite) inputs. -/
theorem validUnitDivide_some_implies_cond {n d : F}
    {r : NormalizedF32Exclusive} (h : validUnitDivide n d = some r) :
    vudSpecCondition n d = true := by
  simp only [validUnitDivide, NormalizedF32Exclusive.new] at h
  simp only [vudSpecCondition]
  split_ifs at h ⊢ <;>
    first
      | exact Option.noConfusion h
      | (rename_i hguard hnew
         exact vud_guard_aux _ _ (Bool.not_eq_true _ |>.mp hguard) hnew)

/-- Helper: on finite inputs, valid_unit_divide succeeds exactly when the
spec-worded condition holds. -/
theorem validUnitDivide_isSome_iff_fin (nq dq : ℚ) :
    (validUnitDivide (F.fin nq) (F.fin dq)).isSome = true ↔
      vudSpecCondition (F.fin nq) (F.fin dq) = true := by
  constructor
  · intro h
    obtain ⟨r, hr⟩ := Option.isSome_iff_exists.mp h
    exact validUnitDivide_some_implies_cond hr
  · intro h
    by_cases hsign : nq < 0
    · have h' : (dq ≠ 0 ∧ nq ≠ 0) ∧ dq < nq := by
        simpa [vudSpecCondition, hsign, Bool.and_eq_true] using h
      obtain ⟨⟨hd0, hn0⟩, hlt⟩ := h'
      have hnpos : (0 : ℚ) < -nq := by linarith
      have hdpos : (0 : ℚ) < -dq := by linarith
      have hlt2 : -nq < -dq := by linarith
      have hdiv : (F.fin (-nq)).div (F.fin (-dq)) = F.fin (-nq / -dq) :=
        F.div_fin_of_ne _ _ (by simpa using hd0)
      have hq : -nq / -dq = nq / dq := by ring
      rw [hq] at hdiv
      have h01 : 0 < nq / dq ∧ nq / dq < 1 := by
        rw [← hq]
        exact ⟨div_pos hnpos hdpos, (div_lt_one hdpos).mpr hlt2⟩
      simp [validUnitDivide, NormalizedF32Exclusive.new, hsign, hd0, hn0,
        hdiv, h01.1, h01.2, not_le.mpr hlt]
    · have h' : (dq ≠ 0 ∧ nq ≠ 0) ∧ nq < dq := by
        simpa [vudSpecCondition, hsign, Bool.and_eq_true] using h
      obtain ⟨⟨hd0, hn0⟩, hlt⟩ := h'
      have hnpos : (0 : ℚ) < nq :=
        lt_of_le_of_ne (not_lt.mp hsign) (Ne.symm hn0)
      have hdpos : (0 : ℚ) < dq := lt_trans hnpos hlt
      have hdiv : (F.fin nq).div (F.fin dq) = F.fin (nq / dq) :=
        F.div_fin_of_ne _ _ hd0
      have h01 : 0 < nq / dq ∧ nq / dq < 1 :=
        ⟨div_pos hnpos hdpos, (div_lt_one hdpos).mpr hlt⟩
      simp [validUnitDivide, NormalizedF32Exclusive.new, hsign, hd0, hn0,
        hdiv, h01.1, h01.2, not_le.mpr hlt]

/-- C5 counterexample: for numerator 2.0 and denominator +infinity the
spec's success condition holds (denominator non-zero, numerator non-zero,
numerator strictly less than the denominator, the sign normalization being
a no-op), yet valid_unit_divide returns no value, because 2.0 / inf = 0.0
fails the exclusive-range constructor; the claimed exact characterization
is therefore false. These inputs arise in the linear case of
find_unit_quad_roots with a = 0, b = +infinity, c = -2. -/
theorem C5_counterexample :
    vudSpecCondition (F.fin 2) (F.inf true) = true ∧
    validUnitDivide (F.fin 2) (F.inf true) = none ∧
    findUnitQuadRoots (F.fin 0) (F.inf true) (F.fin (-2)) = [] := by
  refine ⟨by decide, by decide, by decide⟩

/-- Helper: the three result shapes of find_unit_quad_roots: the optional
linear-case root, the empty list, or the combined roots of the two unit
divides. -/
theorem findUnitQuadRoots_shape (a b c : F) :
    findUnitQuadRoots a b c = (validUnitDivide c.neg b).toList ∨
    findUnitQuadRoots a b c = [] ∨
    ∃ q, findUnitQuadRoots a b c =
      combineRoots (validUnitDivide q a) (validUnitDivide c q) := by
  simp only [findUnitQuadRoots]
  split_ifs with h1 h2 h3 h4
  · left
    cases hv : validUnitDivide c.neg b <;> simp [Option.toList]
  · right; left; rfl
  · right; left; rfl
  · right; right
    exact ⟨_, rfl⟩
  · right; right
    exact ⟨_, rfl⟩

/-- C5 amended: find_unit_quad_roots returns at most two roots, every
returned root lies strictly inside (0,1), a two-root result is strictly
ascending (an exact duplicate root having been collapsed to one), and in
the degenerate linear case a == 0 the result is exactly the optional root
of valid_unit_divide(-c, b). valid_unit_divide returns a value only when,
after normalizing the sign so the numerator is non-negative, the
denominator is non-zero, the numerator is non-zero and the numerator is
strictly less than the denominator; for finite numerator and denominator
that condition is exact (the converse fails on non-finite inputs, see the
counterexample). -/
theorem C5_find_unit_quad_roots_properties (a b c n d : F) :
    (findUnitQuadRoots a b c).length ≤ 2 ∧
    (∀ r ∈ findUnitQuadRoots a b c,
      (F.fin 0).lt r.get = true ∧ r.get.lt (F.fin 1) = true) ∧
    (∀ r0 r1, findUnitQuadRoots a b c = [r0, r1] →
      r0.get.lt r1.get = true) ∧
    (a.beq (F.fin 0) = true →
      findUnitQuadRoots a b c = (validUnitDivide c.neg b).toList) ∧
    (∀ r, validUnitDivide n d = some r → vudSpecCondition n d = true) ∧
    (n.isFinite = true → d.isFinite = true →
      ((validUnitDivide n d).isSome = true ↔
        vudSpecCondition n d = true)) := by
  have hshape := findUnitQuadRoots_shape a b c
  refine ⟨?_, ?_, ?_, ?_, ?_, ?_⟩
  · rcases hshape with h | h | ⟨q, h⟩
    · rw [h]
      cases validUnitDivide c.neg b <;> simp [Option.toList]
    · rw [h]; simp
    · rw [h]; exact combineRoots_length _ _
  · intro r hr
    rcases hshape with h | h | ⟨q, h⟩
    · rw [h] at hr
      rcases hv : validUnitDivide c.neg b with _ | r1 <;> rw [hv] at hr
      · simp [Option.toList] at hr
      · simp [Option.toList] at hr
        subst hr
        exact validUnitDivide_some_bounds hv
    · rw [h] at hr
      simp at hr
    · rw [h] at hr
      rcases combineRoots_mem hr with h2 | h2
      · exact validUnitDivide_some_bounds h2
      · exact validUnitDivide_some_bounds h2
  · intro r0 r1 hr
    rcases hshape with h | h | ⟨q, h⟩
    · rw [h] at hr
      rcases hv : validUnitDivide c.neg b with _ | r2 <;> rw [hv] at hr <;>
        simp [Option.toList] at hr
    · rw [h] at hr
      simp at hr
    · rw [h] at hr
      exact combineRoots_sorted
        (fun r2 hsome => validUnitDivide_some_bounds hsome)
        (fun r2 hsome => validUnitDivide_some_bounds hsome) hr
  · intro ha
    unfold findUnitQuadRoots
    rw [if_pos ha]
    cases validUnitDivide c.neg b <;> simp [Option.toList]
  · intro r hsome
    exact validUnitDivide_some_implies_cond hsome
  · intro hnf hdf
    obtain ⟨nq, rfl⟩ := F.isFinite_iff.mp hnf
    obtain ⟨dq, rfl⟩ := F.isFinite_iff.mp hdf
    exact validUnitDivide_isSome_iff_fin nq dq

/-- C5 witness: the linear-case clause instantiated at a = 0, b = 2,
c = -1, whose single root is 1/2. -/
theorem C5_witness :
    findUnitQuadRoots (F.fin 0) (F.fin 2) (F.fin (-1)) =
      (validUnitDivide (F.fin (-1)).neg (F.fin 2)).toList :=
  (C5_find_unit_quad_roots_properties (F.fin 0) (F.fin 2) (F.fin (-1))
    (F.fin 1) (F.fin 2)).2.2.2.1 (by decide)

/-- Helper: rounding to the nearest integer is monotone. -/
theorem ratRound_mono {x y : ℚ} (h : x ≤ y) : ratRound x ≤ ratRound y := by
  unfold ratRound
  rw [round_eq, round_eq]
  exact Int.floor_le_floor (by linarith)

/-- Helper: rounding fixes integers. -/
theorem ratRound_natCast (n : ℕ) : ratRound (n : ℚ) = n := by
  unfold ratRound
  exact_mod_cast round_natCast n

/-- Helper: an intersection with empty horizontal overlap is none. -/
theorem intersect_none_of_horizontal {a bb : IntRect}
    (h : min a.r bb.r ≤ max a.l bb.l) : a.intersect bb = none := by
  unfold IntRect.intersect
  rw [if_neg]
  intro hc
  exact absurd hc.1 (not_lt.mpr h)

/-- Helper: an intersection with empty vertical overlap is none. -/
theorem intersect_none_of_vertical {a bb : IntRect}
    (h : min a.b bb.b ≤ max a.t bb.t) : a.intersect bb = none := by
  unfold IntRect.intersect
  rw [if_neg]
  intro hc
  exact absurd hc.2 (not_lt.mpr h)

/-- C9: fill_rect rounds the rectangle to integer bounds and intersects
with the clip's integer bounds; when the rounding fails or the
intersection is empty the blitter is never invoked (the call trace is
empty), otherwise blit_rect is invoked exactly once, with the clipped
integer rectangle (whose screen-space conversion always succeeds inside a
screen clip); in particular a rectangle entirely outside the clip produces
zero blitter invocations. -/
theorem C9_fill_rect_clipping (rect : Rect) (clip : ScreenIntRect) :
    (rect.round = none → fillRect rect clip = []) ∧
    (∀ ir, rect.round = some ir → ir.intersect clip.toIntRect = none →
      fillRect rect clip = []) ∧
    (∀ ir cr, rect.round = some ir → ir.intersect clip.toIntRect = some cr →
      ∃ sr, cr.toScreenIntRect = some sr ∧ fillRect rect clip = [sr]) ∧
    ((rect.right.le (F.fin (clip.x : ℚ)) = true ∨
      (F.fin ((clip.x : ℚ) + (clip.w : ℚ))).le rect.left = true ∨
      rect.bottom.le (F.fin (clip.y : ℚ)) = true ∨
      (F.fin ((clip.y : ℚ) + (clip.h : ℚ))).le rect.top = true) →
      fillRect rect clip = []) := by
  refine ⟨?_, ?_, ?_, ?_⟩
  · intro h
    simp only [fillRect, h]
  · intro ir hr hi
    simp only [fillRect, fillIntRect, hr, hi]
  · intro ir cr hr hi
    simp only [IntRect.intersect] at hi
    split_ifs at hi with hne
    · injection hi with hi
      subst hi
      have hx0 : (0 : ℤ) ≤ max ir.l clip.toIntRect.l := by
        refine le_trans ?_ (le_max_right _ _)
        simp [ScreenIntRect.toIntRect]
      have hy0 : (0 : ℤ) ≤ max ir.t clip.toIntRect.t := by
        refine le_trans ?_ (le_max_right _ _)
        simp [ScreenIntRect.toIntRect]
      have hscreen : (IntRect.mk (max ir.l clip.toIntRect.l)
          (max ir.t clip.toIntRect.t) (min ir.r clip.toIntRect.r)
          (min ir.b clip.toIntRect.b)).toScreenIntRect ≠ none := by
        simp only [IntRect.toScreenIntRect]
        rw [if_pos ⟨hx0, hy0, hne.1, hne.2⟩]
        exact Option.some_ne_none _
      rcases hs : (IntRect.mk (max ir.l clip.toIntRect.l)
          (max ir.t clip.toIntRect.t) (min ir.r clip.toIntRect.r)
          (min ir.b clip.toIntRect.b)).toScreenIntRect with _ | sr
      · exact absurd hs hscreen
      · refine ⟨sr, rfl, ?_⟩
        have hi2 : ir.intersect clip.toIntRect =
            some ⟨max ir.l clip.toIntRect.l, max ir.t clip.toIntRect.t,
              min ir.r clip.toIntRect.r, min ir.b clip.toIntRect.b⟩ := by
          simp only [IntRect.intersect]
          rw [if_pos hne]
        simp only [fillRect, fillIntRect, hr, hi2, hs]
  · intro hout
    rcases hr : rect.round with _ | ir
    · simp only [fillRect, hr]
    · obtain ⟨rl, rt, rr, rb⟩ := rect
      simp only [Rect.round] at hr
      rcases rl with _ | _ | ql <;> rcases rt with _ | _ | qt <;>
        rcases rr with _ | _ | qr <;> rcases rb with _ | _ | qb <;>
        try cases hr
      dsimp only at hr
      split_ifs at hr with hne
      · injection hr with hr
        subst hr
        have hnone : (IntRect.mk (ratRound ql) (ratRound qt) (ratRound qr)
            (ratRound qb)).intersect clip.toIntRect = none := by
          rcases hout with h | h | h | h
          · have hq : qr ≤ (clip.x : ℚ) := by simpa using h
            have hle : ratRound qr ≤ (clip.x : ℤ) := by
              have := ratRound_mono hq
              rwa [ratRound_natCast] at this
            refine intersect_none_of_horizontal ?_
            simp only [ScreenIntRect.toIntRect]
            exact le_trans (min_le_left _ _)
              (le_trans hle (le_max_right _ _))
          · have hq : (clip.x : ℚ) + (clip.w : ℚ) ≤ ql := by simpa using h
            have hcast : ((clip.x + clip.w : ℕ) : ℚ)
                = (clip.x : ℚ) + (clip.w : ℚ) := by push_cast; ring
            have hle : (clip.x : ℤ) + (clip.w : ℤ) ≤ ratRound ql := by
              have h2 := ratRound_mono (le_of_eq_of_le hcast hq)
              rwa [ratRound_natCast, Nat.cast_add] at h2
            refine intersect_none_of_horizontal ?_
            simp only [ScreenIntRect.toIntRect]
            exact le_trans (min_le_right _ _)
              (le_trans hle (le_max_left _ _))
          · have hq : qb ≤ (clip.y : ℚ) := by simpa using h
            have hle : ratRound qb ≤ (clip.y : ℤ) := by
              have := ratRound_mono hq
              rwa [ratRound_natCast] at this
            refine intersect_none_of_vertical ?_
            simp only [ScreenIntRect.toIntRect]
            exact le_trans (min_le_left _ _)
              (le_trans hle (le_max_right _ _))
          · have hq : (clip.y : ℚ) + (clip.h : ℚ) ≤ qt := by simpa using h
            have hcast : ((clip.y + clip.h : ℕ) : ℚ)
                = (clip.y : ℚ) + (clip.h : ℚ) := by push_cast; ring
            have hle : (clip.y : ℤ) + (clip.h : ℤ) ≤ ratRound qt := by
              have h2 := ratRound_mono (le_of_eq_of_le hcast hq)
              rwa [ratRound_natCast, Nat.cast_add] at h2
            refine intersect_none_of_vertical ?_
            simp only [ScreenIntRect.toIntRect]
            exact le_trans (min_le_right _ _)
              (le_trans hle (le_max_left _ _))
        have hround : (Rect.mk (F.fin ql) (F.fin qt) (F.fin qr)
            (F.fin qb)).round = some ⟨ratRound ql, ratRound qt, ratRound qr,
              ratRound qb⟩ := by
          simp only [Rect.round]
          dsimp only
          rw [if_pos hne]
        simp only [fillRect, fillIntRect, hround, hnone]

/-- C1 counterexample: the scale/translate fast path of Transform::invert
performs neither the determinant check nor the finiteness check: the
finite transform with sx = 0 (from_row(0,0,0,1,5,0)) inverts to
Some of a non-finite transform (1/0 = +infinity), contradicting the claim
that any returned inverse is finite. -/
theorem C1_counterexample :
    Option.map Transform.isFinite
      (Transform.invert (Transform.fromRow (F.fin 0) (F.fin 0) (F.fin 0)
        (F.fin 1) (F.fin 5) (F.fin 0))) = some false ∧
    (Transform.invert (Transform.fromRow (F.fin 0) (F.fin 0) (F.fin 0)
      (F.fin 1) (F.fin 5) (F.fin 0))).isSome = true := ⟨rfl, rfl⟩

/-- C1 amended: the identity transform inverts to itself, and in the
general (non-scale/translate) branch invert returns no value exactly when
the double-precision determinant is within the cubed nearly-zero tolerance
of zero or the computed inverse is non-finite; the scale/translate fast
path performs neither check and may return a non-finite inverse. -/
theorem C1_invert_none_characterization :
    (Transform.invert Transform.identity = some Transform.identity) ∧
    (∀ t : Transform, t.isIdentity = false → t.isScaleTranslate = false →
      (t.invert = none ↔
        (isNearlyZeroWithinTolerance (dcross t.sx t.sy t.kx t.ky)
            (SCALAR_NEARLY_ZERO * SCALAR_NEARLY_ZERO * SCALAR_NEARLY_ZERO)
              = true ∨
         (computeInv t
            ((F.fin 1).div (dcross t.sx t.sy t.kx t.ky))).isFinite
              = false))) := by
  constructor
  · rfl
  · intro t hid hst
    unfold Transform.invert invertBody
    rw [if_neg (by simp [hid]), if_neg (by simp [hst])]
    by_cases hnz : isNearlyZeroWithinTolerance (dcross t.sx t.sy t.kx t.ky)
        (SCALAR_NEARLY_ZERO * SCALAR_NEARLY_ZERO * SCALAR_NEARLY_ZERO) = true
    · simp only [invDeterminant]
      rw [if_pos hnz]
      simp [hnz]
    · simp only [invDeterminant]
      rw [if_neg hnz]
      cases hfin :
          (computeInv t ((F.fin 1).div (dcross t.sx t.sy t.kx t.ky))).isFinite
      · simp [hfin, hnz]
      · simp [hfin, hnz]

/-- C1 witness: the characterization instantiated on the skewed transform
from_row(1,1,2,1,0,0), whose determinant is -1: invert succeeds there and
both right-hand disjuncts are false. -/
theorem C1_witness :
    (Transform.fromRow (F.fin 1) (F.fin 1) (F.fin 2) (F.fin 1) (F.fin 0)
        (F.fin 0)).invert = none ↔
      (isNearlyZeroWithinTolerance
          (dcross (F.fin 1) (F.fin 1) (F.fin 2) (F.fin 1))
          (SCALAR_NEARLY_ZERO * SCALAR_NEARLY_ZERO * SCALAR_NEARLY_ZERO)
            = true ∨
       (computeInv (Transform.fromRow (F.fin 1) (F.fin 1) (F.fin 2) (F.fin 1)
            (F.fin 0) (F.fin 0))
          ((F.fin 1).div
            (dcross (F.fin 1) (F.fin 1) (F.fin 2) (F.fin 1)))).isFinite
            = false) :=
  C1_invert_none_characterization.2
    (Transform.fromRow (F.fin 1) (F.fin 1) (F.fin 2) (F.fin 1) (F.fin 0)
      (F.fin 0)) (by decide) (by decide)

/-- C4 counterexample: from_row(1,1,1,1,0,0) passes is_valid (both axis
scale magnitudes are sqrt 2, far from zero) yet is singular (determinant
zero), so invert() returns no value: is_valid does not guarantee
invertibility. -/
theorem C4_counterexample :
    (Transform.fromRow (F.fin 1) (F.fin 1) (F.fin 1) (F.fin 1) (F.fin 0)
        (F.fin 0)).isValid = true ∧
    (Transform.fromRow (F.fin 1) (F.fin 1) (F.fin 1) (F.fin 1) (F.fin 0)
      (F.fin 0)).invert = none := by
  have hs2 : Rat.sqrt 2 = 1 := by
    rw [show (2 : ℚ) = ((2 : ℕ) : ℚ) by norm_num, Rat.sqrt_natCast]
    norm_num
  constructor
  · simp only [Transform.isValid, Transform.isFinite, Transform.getScale,
      Transform.fromRow, F.isFinite_fin, F.mul_fin, F.add_fin, F.sqrt]
    norm_num [isNearlyZeroWithinTolerance, F32_EPSILON, F.abs, F.le, hs2]
  · unfold Transform.invert
    rw [if_neg (by decide)]
    unfold invertBody
    rw [if_neg (by decide)]
    have hz : isNearlyZeroWithinTolerance
        (dcross (F.fin 1) (F.fin 1) (F.fin 1) (F.fin 1))
        (SCALAR_NEARLY_ZERO * SCALAR_NEARLY_ZERO * SCALAR_NEARLY_ZERO)
          = true := by
      norm_num [isNearlyZeroWithinTolerance, dcross, SCALAR_NEARLY_ZERO,
        F.abs, F.le]
    simp [invDeterminant, Transform.fromRow, hz]

/-- Helper: a scale component whose square-root magnitude passes the
is_valid nearly-zero rejection is the square root of a non-zero value. -/
theorem scale_not_nearly_zero_ne {e : ℚ}
    (h : isNearlyZeroWithinTolerance (F.sqrt (F.fin e)) F32_EPSILON = false) :
    e ≠ 0 := by
  rintro rfl
  have h0 : Rat.sqrt 0 = 0 := by simp
  norm_num [F.sqrt, isNearlyZeroWithinTolerance, F32_EPSILON, h0, F.abs,
    F.le] at h

/-- C4 amended: for every transform with is_valid() true whose invert()
returns an inverse m, pre_concat with m yields exactly the identity
transform in this exact-arithmetic model (hence identity within any
epsilon); the claim's stronger form — that invert() always succeeds on
valid transforms — fails, since is_valid does not inspect the determinant
(see the counterexample). -/
theorem C4_invert_pre_concat_identity (t m : Transform)
    (hv : t.isValid = true) (hi : t.invert = some m) :
    t.preConcat m = Transform.identity := by
  have hfin : t.isFinite = true := by
    unfold Transform.isValid at hv
    split_ifs at hv with hf
    · exact hf
  obtain ⟨sx, kx, ky, sy, tx, ty⟩ := t
  simp only [Transform.isFinite, Bool.and_eq_true, F.isFinite_iff] at hfin
  obtain ⟨⟨⟨⟨⟨⟨a, rfl⟩, ⟨c, rfl⟩⟩, ⟨b, rfl⟩⟩, ⟨d, rfl⟩⟩, ⟨e, rfl⟩⟩,
    ⟨g, rfl⟩⟩ := hfin
  unfold Transform.invert at hi
  by_cases hid : (Transform.mk (F.fin a) (F.fin b) (F.fin c) (F.fin d)
      (F.fin e) (F.fin g)).isIdentity = true
  · rw [if_pos hid] at hi
    injection hi with hi
    subst hi
    simp only [Transform.isIdentity, Bool.and_eq_true, F.beq_fin,
      beq_iff_eq] at hid
    obtain ⟨⟨⟨⟨⟨rfl, rfl⟩, rfl⟩, rfl⟩, rfl⟩, rfl⟩ := hid
    rfl
  · rw [if_neg hid] at hi
    unfold invertBody at hi
    by_cases hst : (Transform.mk (F.fin a) (F.fin b) (F.fin c) (F.fin d)
        (F.fin e) (F.fin g)).isScaleTranslate = true
    · rw [if_pos hst] at hi
      have hnoskew : b = 0 ∧ c = 0 := by
        have := (Bool.and_eq_true _ _ |>.mp hst).2
        simpa [Transform.hasSkew, Bool.or_eq_false_iff] using this
      obtain ⟨rfl, rfl⟩ := hnoskew
      by_cases hsc : (Transform.mk (F.fin a) (F.fin 0) (F.fin 0) (F.fin d)
          (F.fin e) (F.fin g)).hasScale = true
      · rw [if_pos hsc] at hi
        -- extract non-zero scales from is_valid
        simp only [Transform.isValid, Transform.getScale] at hv
        rw [if_pos (by rfl)] at hv
        simp only [Bool.not_eq_true', Bool.or_eq_false_iff] at hv
        have ha : a ≠ 0 := by
          have h1 := hv.1
          rw [show ((F.fin a).mul (F.fin a)).add
              ((F.fin 0).mul (F.fin 0)) = F.fin (a * a + 0 * 0) by simp]
            at h1
          have := scale_not_nearly_zero_ne h1
          intro hz
          apply this
          rw [hz]
          ring
        have hd : d ≠ 0 := by
          have h2 := hv.2
          rw [show ((F.fin 0).mul (F.fin 0)).add
              ((F.fin d).mul (F.fin d)) = F.fin (0 * 0 + d * d) by simp]
            at h2
          have := scale_not_nearly_zero_ne h2
          intro hz
          apply this
          rw [hz]
          ring
        rw [show scalarInvert (F.fin a) = F.fin (1 / a) from
          F.div_fin_of_ne 1 a ha] at hi
        rw [show scalarInvert (F.fin d) = F.fin (1 / d) from
          F.div_fin_of_ne 1 d hd] at hi
        simp only [F.neg_fin, F.mul_fin, Option.some.injEq] at hi
        subst hi
        have hscm : a ≠ 1 ∨ d ≠ 1 := by
          simpa [Transform.hasScale, Bool.or_eq_true, Bool.not_eq_true',
            beq_eq_false_iff_ne] using hsc
        unfold Transform.preConcat concat
        rw [if_neg (by simp [hid])]
        rw [if_neg (by
          simp only [Transform.isIdentity, Transform.fromRow, F.beq_fin,
            Bool.and_eq_true, beq_iff_eq]
          rintro ⟨⟨⟨⟨⟨h1, -⟩, -⟩, h4⟩, -⟩, -⟩
          rcases hscm with hne | hne
          · exact hne (by field_simp at h1; linarith)
          · exact hne (by field_simp at h4; linarith))]
        rw [if_pos (by simp [Transform.hasSkew, Transform.fromRow])]
        simp only [Transform.fromRow, F.mul_fin, F.add_fin]
        congr 1 <;> rw [F.fin.injEq] <;> field_simp <;> ring
      · rw [if_neg hsc] at hi
        have hscf : a = 1 ∧ d = 1 := by
          simpa [Transform.hasScale, Bool.or_eq_false_iff] using hsc
        obtain ⟨rfl, rfl⟩ := hscf
        simp only [Transform.fromTranslate, Transform.fromRow, F.neg_fin,
          Option.some.injEq] at hi
        subst hi
        have htr : e ≠ 0 ∨ g ≠ 0 := by
          by_contra hng
          push_neg at hng
          obtain ⟨rfl, rfl⟩ := hng
          simp [Transform.isIdentity] at hid
        unfold Transform.preConcat concat
        rw [if_neg (by simp [hid])]
        rw [if_neg (by
          simp only [Transform.isIdentity, F.beq_fin, Bool.and_eq_true,
            beq_iff_eq]
          rintro ⟨⟨⟨⟨⟨-, -⟩, -⟩, -⟩, h5⟩, h6⟩
          rcases htr with hne | hne
          · exact hne (by linarith)
          · exact hne (by linarith))]
        rw [if_pos (by simp [Transform.hasSkew])]
        simp only [F.mul_fin, F.add_fin]
        congr 1 <;> rw [F.fin.injEq] <;> ring
    · rw [if_neg hst] at hi
      have hskew : b ≠ 0 ∨ c ≠ 0 := by
        by_contra hng
        push_neg at hng
        obtain ⟨rfl, rfl⟩ := hng
        apply hst
        have hsk : (Transform.mk (F.fin a) (F.fin 0) (F.fin 0) (F.fin d)
            (F.fin e) (F.fin g)).hasSkew = false := by
          simp [Transform.hasSkew]
        rw [Transform.isScaleTranslate, hsk]
        simp only [Bool.not_false, Bool.and_true, Bool.or_eq_true]
        by_contra hno
        push_neg at hno
        obtain ⟨hns, hnt⟩ := hno
        simp only [Bool.not_eq_true] at hns hnt
        simp only [Transform.hasScale, F.beq_fin, Bool.or_eq_false_iff]
          at hns
        simp only [Transform.hasTranslate, F.beq_fin, Bool.or_eq_false_iff]
          at hnt
        have h1 : a = 1 := by simpa using hns.1
        have h4 : d = 1 := by simpa using hns.2
        have h5 : e = 0 := by simpa using hnt.1
        have h6 : g = 0 := by simpa using hnt.2
        subst h1
        subst h4
        subst h5
        subst h6
        simp [Transform.isIdentity] at hid
      have hdet : dcross (F.fin a) (F.fin d) (F.fin b) (F.fin c)
          = F.fin (a * d + -(b * c)) := by simp [dcross]
      by_cases hnz : isNearlyZeroWithinTolerance
          (F.fin (a * d + -(b * c)))
          (SCALAR_NEARLY_ZERO * SCALAR_NEARLY_ZERO * SCALAR_NEARLY_ZERO)
            = true
      · rw [show invDeterminant (Transform.mk (F.fin a) (F.fin b) (F.fin c)
            (F.fin d) (F.fin e) (F.fin g)) = none by
          simp only [invDeterminant, hdet]
          rw [if_pos hnz]] at hi
        cases hi
      · have hdne : a * d + -(b * c) ≠ 0 := by
          intro hz
          apply hnz
          rw [hz]
          norm_num [isNearlyZeroWithinTolerance, SCALAR_NEARLY_ZERO,
            F.abs, F.le]
        rw [show invDeterminant (Transform.mk (F.fin a) (F.fin b) (F.fin c)
            (F.fin d) (F.fin e) (F.fin g))
              = some (F.fin (1 / (a * d + -(b * c)))) by
          simp only [invDeterminant, hdet]
          rw [if_neg hnz, F.div_fin_of_ne 1 _ hdne]] at hi
        simp only [computeInv, dcrossDscale, dcross, Transform.fromRow,
          F.neg_fin, F.mul_fin, F.sub_fin, Transform.isFinite,
          F.isFinite_fin, Bool.and_self, if_true, Option.some.injEq] at hi
        subst hi
        unfold Transform.preConcat concat
        rw [if_neg (by simp [hid])]
        have hinv : 1 / (a * d + -(b * c)) ≠ 0 := one_div_ne_zero hdne
        rw [if_neg (by
          simp only [Transform.isIdentity, F.beq_fin, Bool.and_eq_true,
            beq_iff_eq]
          rintro ⟨⟨⟨⟨⟨-, h2⟩, h3⟩, -⟩, -⟩, -⟩
          rcases hskew with hne | hne
          · exact hne (by
              rcases mul_eq_zero.mp h2 with h | h
              · exact neg_eq_zero.mp h
              · exact absurd h hinv)
          · exact hne (by
              rcases mul_eq_zero.mp h3 with h | h
              · exact neg_eq_zero.mp h
              · exact absurd h hinv))]
        rw [if_neg (by
          simp only [Bool.and_eq_true, Bool.not_eq_true']
          rintro ⟨hsk, -⟩
          simp only [Transform.hasSkew, F.beq_fin, Bool.or_eq_false_iff]
            at hsk
          rcases hskew with hne | hne
          · exact hne (by simpa using hsk.1)
          · exact hne (by simpa using hsk.2))]
        simp only [mulAddMul, F.mul_fin, F.add_fin]
        congr 1 <;> rw [F.fin.injEq] <;> field_simp <;> ring

/-- C4 witness: the amended claim applied to the valid scale transform
from_row(2,0,0,2,0,0), whose inverse scales by 1/2: their pre_concat is
the identity. -/
theorem C4_witness :
    (Transform.fromRow (F.fin 2) (F.fin 0) (F.fin 0) (F.fin 2) (F.fin 0)
        (F.fin 0)).preConcat
      (Transform.fromRow (F.fin (1 / 2)) (F.fin 0) (F.fin 0)
        (F.fin (1 / 2)) ((F.fin 0).neg.mul (F.fin (1 / 2)))
        ((F.fin 0).neg.mul (F.fin (1 / 2)))) = Transform.identity :=
  C4_invert_pre_concat_identity _ _
    (by
      have hs1 : Rat.sqrt (2 * 2 + 0 * 0 : ℚ) = 2 := by
        rw [show (2 * 2 + 0 * 0 : ℚ) = 2 * 2 by norm_num, Rat.sqrt_eq]
        norm_num
      have hs2 : Rat.sqrt (0 * 0 + 2 * 2 : ℚ) = 2 := by
        rw [show (0 * 0 + 2 * 2 : ℚ) = 2 * 2 by norm_num, Rat.sqrt_eq]
        norm_num
      simp only [Transform.isValid, Transform.isFinite, Transform.getScale,
        Transform.fromRow, F.isFinite_fin, F.mul_fin, F.add_fin, F.sqrt]
      norm_num [isNearlyZeroWithinTolerance, F32_EPSILON, F.abs, F.le,
        hs1, hs2])
    rfl

/-- C8 witness: the degenerate-endpoint fallback applied at t = 0 on a
cubic whose first two control points coincide. -/
theorem C8_witness :
    evalCubicTangentAt (⟨F.fin 30, F.fin 40⟩, ⟨F.fin 30, F.fin 40⟩,
        ⟨F.fin 171, F.fin 45⟩, ⟨F.fin 180, F.fin 155⟩) NormalizedF32.ZERO =
      (if ((⟨F.fin 171, F.fin 45⟩ : Point).sub ⟨F.fin 30, F.fin 40⟩).x.beq
            (F.fin 0) &&
          ((⟨F.fin 171, F.fin 45⟩ : Point).sub ⟨F.fin 30, F.fin 40⟩).y.beq
            (F.fin 0)
       then (⟨F.fin 180, F.fin 155⟩ : Point).sub ⟨F.fin 30, F.fin 40⟩
       else (⟨F.fin 171, F.fin 45⟩ : Point).sub ⟨F.fin 30, F.fin 40⟩) :=
  (C8_eval_cubic_tangent_fallback ⟨F.fin 30, F.fin 40⟩ ⟨F.fin 30, F.fin 40⟩
    ⟨F.fin 171, F.fin 45⟩ ⟨F.fin 180, F.fin 155⟩).1 (by decide)

/-- C9 witness: a rectangle entirely to the right of the clip produces an
empty blit trace. -/
theorem C9_witness :
    fillRect ⟨F.fin 100, F.fin 100, F.fin 110, F.fin 110⟩
      ⟨0, 0, 10, 10⟩ = [] :=
  (C9_fill_rect_clipping ⟨F.fin 100, F.fin 100, F.fin 110, F.fin 110⟩
    ⟨0, 0, 10, 10⟩).2.2.2 (Or.inr (Or.inl (by norm_num)))

/-- C10: the totality/no-panic claim fails on the code. On the finite,
exactly representable control points (2^100, -2^100), (0, 0),
(2^100, 3*2^100), the products ax*bx and ay*by overflow single precision
to opposite infinities, their sum is NaN, so the computed numerator is
NaN; both guards compare false against NaN, the quotient is NaN, and the
final NormalizedF32 construction fails — the none below is exactly the
point where the source's unwrap panics on malformed-but-finite input. -/
theorem C10_find_quad_max_curvature_overflow_failure :
    (Point.isFinite ⟨F.fin (2 ^ 100), F.fin (-(2 ^ 100))⟩ = true) ∧
    (Point.isFinite ⟨F.fin 0, F.fin 0⟩ = true) ∧
    (Point.isFinite ⟨F.fin (2 ^ 100), F.fin (3 * 2 ^ 100)⟩ = true) ∧
    fqmcNumer (⟨F.fin (2 ^ 100), F.fin (-(2 ^ 100))⟩, ⟨F.fin 0, F.fin 0⟩,
      ⟨F.fin (2 ^ 100), F.fin (3 * 2 ^ 100)⟩) = F.nan ∧
    findQuadMaxCurvature (⟨F.fin (2 ^ 100), F.fin (-(2 ^ 100))⟩,
      ⟨F.fin 0, F.fin 0⟩, ⟨F.fin (2 ^ 100), F.fin (3 * 2 ^ 100)⟩) = none := by
  have hnum : fqmcNumer (⟨F.fin (2 ^ 100), F.fin (-(2 ^ 100))⟩,
      ⟨F.fin 0, F.fin 0⟩, ⟨F.fin (2 ^ 100), F.fin (3 * 2 ^ 100)⟩)
        = F.nan := by
    norm_num [fqmcNumer, F.sub32, F.add32, F.mul32, F.sat32, F32_MAX,
      F.sub, F.add, F.mul, F.neg]
  have hden : fqmcDenom (⟨F.fin (2 ^ 100), F.fin (-(2 ^ 100))⟩,
      ⟨F.fin 0, F.fin 0⟩, ⟨F.fin (2 ^ 100), F.fin (3 * 2 ^ 100)⟩)
        = F.inf true := by
    norm_num [fqmcDenom, F.sub32, F.add32, F.mul32, F.sat32, F32_MAX,
      F.sub, F.add, F.mul, F.neg]
  refine ⟨rfl, rfl, rfl, hnum, ?_⟩
  simp only [findQuadMaxCurvature, hnum, hden]
  norm_num [F.lt, F.le, F.neg, F.div32, F.div, F.sat32,
    NormalizedF32.new]
